import Mathlib

/-!
Verification development for the Chinese text-preprocessing pipeline
(src/test01.py).  The pure text functions (preprocess_text,
filter_stopwords, Counter-based frequency ranking), the file handling
(read_file, write_file, load_stopwords, save_results, main) and the
segmentation / keyword extraction stages are embedded shallowly below;
strings are sequences of Unicode scalar values (List Char), the file
system is an explicit state record, and jieba's dictionary-driven
algorithms - which live in the external jieba library, not in this
repository - are modelled from the specification.
-/

/-! ### Character classes of the source regexes -/

/-- The character class of the regex [一-龥] in preprocess_text:
CJK unified ideographs. -/
def isCJK (c : Char) : Bool := 19968 ≤ c.toNat && c.toNat ≤ 40869

/-- The code points Python treats as whitespace (the regex class \s over
str and the characters str.strip removes): the ASCII whitespace
characters, the C1 separators, NEL, no-break space, ogham space mark,
the U+2000 block spaces, line and paragraph separator, narrow no-break
space, medium mathematical space and ideographic space. -/
def pySpaceCodes : List Nat :=
  [32, 9, 10, 11, 12, 13, 28, 29, 30, 31, 133, 160, 5760,
   8192, 8193, 8194, 8195, 8196, 8197, 8198, 8199, 8200, 8201, 8202,
   8232, 8233, 8239, 8287, 12288]

def isSpace (c : Char) : Bool := pySpaceCodes.contains c.toNat

/-- The regex class \d restricted to the ASCII digits 0-9.  Python's \d
also matches the other Unicode decimal digits; the restriction affects
no claim, because every character the first pass leaves in place is
either a CJK ideograph or is turned into a space by the second pass. -/
def isDigitChar (c : Char) : Bool := 48 ≤ c.toNat && c.toNat ≤ 57

/-- The regex class [a-zA-Z] (code points 97-122 and 65-90). -/
def isLatin (c : Char) : Bool :=
  (97 ≤ c.toNat && c.toNat ≤ 122) || (65 ≤ c.toNat && c.toNat ≤ 90)

/-! ### First pass of preprocess_text:
re.sub of the alternation given by tag | url | digits | letters, where
tag is < [^>]+ >, url is http, an optional s, :// and then [^\s]+, and
the last two alternatives are \d+ and [a-zA-Z]+.  re.sub scans left to
right, at each position trying the alternatives in this order; a match
is removed (replaced by the empty string) and scanning resumes after it. -/

/-- Length of the match of the alternative < [^>]+ > at the head of l, if
any: a literal <, then at least one character other than >, then the
first > thereafter. -/
def matchTag : List Char → Option Nat
  | '<' :: rest =>
    if 1 ≤ (rest.takeWhile (fun c => c ≠ '>')).length ∧
        (rest.takeWhile (fun c => c ≠ '>')).length < rest.length then
      some ((rest.takeWhile (fun c => c ≠ '>')).length + 2)
    else none
  | _ => none

/-- Length of the match of the url alternative at the head of l, if any:
the literal https:// or http:// (the optional s is tried greedily first)
followed by a maximal nonempty run of non-whitespace. -/
def matchURL (l : List Char) : Option Nat :=
  if l.take 8 = "https://".toList then
    if 1 ≤ ((l.drop 8).takeWhile (fun c => !isSpace c)).length then
      some (8 + ((l.drop 8).takeWhile (fun c => !isSpace c)).length)
    else none
  else if l.take 7 = "http://".toList then
    if 1 ≤ ((l.drop 7).takeWhile (fun c => !isSpace c)).length then
      some (7 + ((l.drop 7).takeWhile (fun c => !isSpace c)).length)
    else none
  else none

/-- Length of the match of \d+ at the head of l: a maximal nonempty digit
run. -/
def matchDigits (l : List Char) : Option Nat :=
  if 1 ≤ (l.takeWhile isDigitChar).length then some (l.takeWhile isDigitChar).length
  else none

/-- Length of the match of [a-zA-Z]+ at the head of l: a maximal nonempty
Latin-letter run. -/
def matchLatin (l : List Char) : Option Nat :=
  if 1 ≤ (l.takeWhile isLatin).length then some (l.takeWhile isLatin).length
  else none

/-- The regex alternation at the head of l: alternatives tried in the
order they are written in the source pattern. -/
def tryMatch (l : List Char) : Option Nat :=
  (matchTag l).orElse fun _ =>
    (matchURL l).orElse fun _ =>
      (matchDigits l).orElse fun _ => matchLatin l

/-! The positivity of every match length, needed below for the
termination of the first substitution pass. -/

theorem matchTag_pos {l : List Char} {n : Nat} (h : matchTag l = some n) : 1 ≤ n := by
  rw [matchTag.eq_def] at h
  split at h
  · split at h
    · injection h with h; omega
    · cases h
  · cases h

theorem matchURL_pos {l : List Char} {n : Nat} (h : matchURL l = some n) : 1 ≤ n := by
  rw [matchURL.eq_def] at h
  split at h
  · split at h
    · injection h with h; omega
    · cases h
  · split at h
    · split at h
      · injection h with h; omega
      · cases h
    · cases h

theorem matchDigits_pos {l : List Char} {n : Nat} (h : matchDigits l = some n) : 1 ≤ n := by
  rw [matchDigits.eq_def] at h
  split at h
  · injection h with h; omega
  · cases h

theorem matchLatin_pos {l : List Char} {n : Nat} (h : matchLatin l = some n) : 1 ≤ n := by
  rw [matchLatin.eq_def] at h
  split at h
  · injection h with h; omega
  · cases h

theorem tryMatch_pos {l : List Char} {n : Nat} (h : tryMatch l = some n) : 1 ≤ n := by
  unfold tryMatch at h
  rcases htag : matchTag l with _ | k <;> rw [htag] at h
  · rcases hurl : matchURL l with _ | k <;> rw [hurl] at h
    · rcases hdig : matchDigits l with _ | k <;> rw [hdig] at h
      · exact matchLatin_pos h
      · cases h; exact matchDigits_pos hdig
    · cases h; exact matchURL_pos hurl
  · cases h; exact matchTag_pos htag

/-- The first substitution pass of preprocess_text: remove every
(leftmost, non-overlapping) match of the alternation. -/
def sub1 : List Char → List Char
  | [] => []
  | c :: cs =>
    match h : tryMatch (c :: cs) with
    | some n => sub1 ((c :: cs).drop n)
    | none => c :: sub1 cs
termination_by l => l.length
decreasing_by
  · have h1 : 1 ≤ n := tryMatch_pos h
    simp only [List.length_drop, List.length_cons]
    omega
  · simp

/-- The second substitution pass: every character that is not a CJK
ideograph becomes a single space. -/
def sub2 (l : List Char) : List Char := l.map fun c => if isCJK c then c else ' '

/-- The third pass, re.sub of \s+ by a single space: each maximal
whitespace run collapses to one ASCII space. -/
def collapseWS : List Char → List Char
  | [] => []
  | c :: cs =>
    if isSpace c then ' ' :: collapseWS (cs.dropWhile isSpace)
    else c :: collapseWS cs
termination_by l => l.length
decreasing_by
  · have := (List.dropWhile_sublist (l := cs) isSpace).length_le
    simp only [List.length_cons]
    omega
  · simp

/-- Python str.strip(): drop whitespace from both ends. -/
def pyStrip (l : List Char) : List Char :=
  (l.dropWhile isSpace).rdropWhile isSpace

/-- preprocess_text from the source: the three regex passes in order,
then strip. -/
def preprocess_text (text : List Char) : List Char :=
  pyStrip (collapseWS (sub2 (sub1 text)))

/-! ### filter_stopwords and the frequency table -/

/-- filter_stopwords from the source: keep word when word.strip() is
truthy (nonempty) and the word itself (untrimmed) is not in the stopword
set. -/
def filter_stopwords (word_list : List (List Char)) (stopwords : List (List Char)) :
    List (List Char) :=
  word_list.filter fun word => !(pyStrip word).isEmpty && !stopwords.contains word

/-- The specification's reading of the filter contract, for comparison:
a token is removed when its word, after trimming, is empty or is present
(exact match) in the stopword set - that is, membership is tested on the
trimmed word. -/
def filter_stopwords_spec (word_list : List (List Char)) (stopwords : List (List Char)) :
    List (List Char) :=
  word_list.filter fun word => !(pyStrip word).isEmpty && !stopwords.contains (pyStrip word)

/-- One insertion into a Python dict-backed counter: increment the entry
of w if present, else append (w, 1) at the end (Python dicts preserve
insertion order). -/
def bump {α : Type} [DecidableEq α] (acc : List (α × Nat)) (w : α) : List (α × Nat) :=
  match acc with
  | [] => [(w, 1)]
  | (k, n) :: rest => if k = w then (k, n + 1) :: rest else (k, n) :: bump rest w

/-- collections.Counter(ws) as the ordered association list it iterates
as: keys in first-insertion order, each with its multiplicity. -/
def counter {α : Type} [DecidableEq α] (ws : List α) : List (α × Nat) :=
  ws.foldl bump []

/-- The distinct elements of ws that are not in seen, in order of first
occurrence. -/
def firstOccsFrom {α : Type} [DecidableEq α] (seen : List α) : List α → List α
  | [] => []
  | x :: xs => if x ∈ seen then firstOccsFrom seen xs else x :: firstOccsFrom (x :: seen) xs

/-- Stable insertion into a descending run: x goes in front of the first
element whose key is not larger, so among equal keys the inserted
(originally earlier) element comes first - the stability guarantee of
Python's sorted. -/
def insertDesc {α β : Type} [LinearOrder β] (key : α → β) (x : α) : List α → List α
  | [] => [x]
  | y :: ys => if key y ≤ key x then x :: y :: ys else y :: insertDesc key x ys

/-- Python sorted(l, key, reverse=True): a stable sort, descending on the
key. -/
def sortDesc {α β : Type} [LinearOrder β] (key : α → β) : List α → List α
  | [] => []
  | x :: xs => insertDesc key x (sortDesc key xs)

/-- Modelled from the spec: the lexicon is a word-to-weight table (jieba's
dictionary); custom atomic entries are realized as entries whose weight
dominates any alternative decomposition. -/
structure Lexicon where
  entries : List (List Char × Nat)

/-- Whether w is a lexicon entry. -/
def inLex (lex : Lexicon) (w : List Char) : Bool :=
  lex.entries.any fun e => e.1 == w

/-- The weight of a lexicon entry (0 when absent). -/
def weightOf (lex : Lexicon) (w : List Char) : Nat :=
  (((lex.entries.find? fun e => e.1 == w).map fun e => e.2).getD 0)

/-- Modelled from the spec: best-path dynamic programming over one CJK
run.  At each position every lexicon-entry prefix is a candidate edge;
the path maximizing the total entry weight is chosen, ties preferring
fewer resulting tokens; a position where no entry matches falls back to
a single-character unknown token.  The Nat argument is recursion fuel,
always instantiated with the run length. -/
def bestSegAux (lex : Lexicon) : Nat → List Char → Nat × List (List Char)
  | 0, _ => (0, [])
  | _, [] => (0, [])
  | fuel + 1, c :: cs =>
    match (List.range (cs.length + 1)).filterMap (fun k =>
        if inLex lex ((c :: cs).take (k + 1)) then
          some (weightOf lex ((c :: cs).take (k + 1)) +
                  (bestSegAux lex fuel ((c :: cs).drop (k + 1))).1,
                ((c :: cs).take (k + 1)) ::
                  (bestSegAux lex fuel ((c :: cs).drop (k + 1))).2)
        else none) with
    | [] => ((bestSegAux lex fuel cs).1, [c] :: (bestSegAux lex fuel cs).2)
    | c0 :: rest =>
      rest.foldl
        (fun best cand =>
          if best.1 < cand.1 || (best.1 == cand.1 && cand.2.length < best.2.length) then
            cand
          else best) c0

/-- Maximal runs of CJK ideographs of a text (the segmenter works run by
run; whitespace and any other separators produce no tokens). -/
def splitRuns : List Char → List (List Char)
  | [] => []
  | c :: cs =>
    if isCJK c then (c :: cs.takeWhile isCJK) :: splitRuns (cs.dropWhile isCJK)
    else splitRuns cs
termination_by l => l.length
decreasing_by
  all_goals
    have h9 := (List.dropWhile_sublist (l := cs) isCJK).length_le
    simp only [List.length_cons]
    omega

/-- Modelled from the spec: precise-mode segmentation (jieba.lcut): the
best-path tokens of each maximal CJK run, in order. -/
def lcut (lex : Lexicon) (text : List Char) : List (List Char) :=
  (splitRuns text).flatMap fun run => (bestSegAux lex run.length run).2

/-- Modelled from the spec: the contiguous sub-substrings (length at
least 2, shorter than the word) of a precise-mode word that are lexicon
entries, in order of start position then length. -/
def subwords (lex : Lexicon) (w : List Char) : List (List Char) :=
  (List.range w.length).flatMap fun i =>
    (List.range w.length).filterMap fun m =>
      if i + (m + 2) ≤ w.length ∧ m + 2 < w.length ∧
          inLex lex ((w.drop i).take (m + 2)) = true then
        some ((w.drop i).take (m + 2))
      else none

/-- Modelled from the spec: search-mode segmentation
(jieba.lcut_for_search): the precise-mode segmentation with, after each
word, the lexicon-entry sub-substrings of that word. -/
def lcut_for_search (lex : Lexicon) (text : List Char) : List (List Char) :=
  (lcut lex text).flatMap fun w => w :: subwords lex w

/-- segment_text from the source: search mode on mode == "search",
otherwise precise mode. -/
def segment_text (lex : Lexicon) (text : List Char) (mode : String) : List (List Char) :=
  if mode == "search" then lcut_for_search lex text else lcut lex text

inductive FileContent where
  | absent
  | utf8 (s : List Char)
  | gbkOnly (s : List Char)
  | undecodable
deriving DecidableEq

structure FS where
  files : String → FileContent
  writable : String → Bool

/-- One attempted output write: the path, the content offered, and
whether the write succeeded (the boolean write_file returns). -/
structure WriteAttempt where
  path : String
  content : List Char
  ok : Bool
deriving DecidableEq

def INPUT_FILE : String := "input.txt"

def STOPWORDS_FILE : String := "stopwords.txt"

def WORD_FREQ_FILE : String := "word_frequency.txt"

def TOP_KEYWORDS_TFIDF_FILE : String := "top_keywords_tfidf.txt"

def TOP_KEYWORDS_TEXTRANK_FILE : String := "top_keywords_textrank.txt"

/-- write_file from the source: write and return True, or catch the
failure and return False. -/
def write_file (fs : FS) (p : String) (content : List Char) : FS × Bool :=
  if fs.writable p then
    (FS.mk (fun q => if q = p then FileContent.utf8 content else fs.files q) fs.writable,
      true)
  else (fs, false)

/-- Python truthiness of an optional string: None and the empty string
are falsy. -/
def truthyOpt : Option (List Char) → Bool
  | some s => !s.isEmpty
  | none => false

/-- read_file from the source: UTF-8 first, the GBK fallback on decode
failure, default_return when both fail; on a missing file, when
create_default is set and default_return is truthy the default is
written out, and default_return is returned in every missing-file case. -/
def read_file (fs : FS) (p : String) (default_return : Option (List Char))
    (create_default : Bool) : Option (List Char) × FS :=
  match fs.files p with
  | FileContent.utf8 s => (some s, fs)
  | FileContent.gbkOnly s => (some s, fs)
  | FileContent.undecodable => (default_return, fs)
  | FileContent.absent =>
    if create_default && truthyOpt default_return then
      (default_return, (write_file fs p (default_return.getD [])).1)
    else (default_return, fs)

/-- str.splitlines restricted to the newline separator (the only line
separator the data of this program contains); a trailing newline does
not open an empty final line, and the empty string has no lines. -/
def splitlinesAux (cur : List Char) : List Char → List (List Char)
  | [] => [cur.reverse]
  | c :: cs =>
    if c = '\n' then
      cur.reverse :: (match cs with | [] => [] | _ :: _ => splitlinesAux [] cs)
    else splitlinesAux (c :: cur) cs

def splitlines : List Char → List (List Char)
  | [] => []
  | c :: cs => splitlinesAux [] (c :: cs)

/-- The string "\n".join(lines). -/
def joinNL : List (List Char) → List Char
  | [] => []
  | [l] => l
  | l :: ls => l ++ '\n' :: joinNL ls

/-- Python string comparison: strict lexicographic order on code
points. -/
def lexLt : List Char → List Char → Bool
  | [], [] => false
  | [], _ :: _ => true
  | _ :: _, [] => false
  | a :: as, b :: bs => if a < b then true else if b < a then false else lexLt as bs

def insertAsc (x : List Char) : List (List Char) → List (List Char)
  | [] => [x]
  | y :: ys => if lexLt x y then x :: y :: ys else y :: insertAsc x ys

/-- Python sorted(strings): ascending lexicographic order. -/
def sortAsc : List (List Char) → List (List Char)
  | [] => []
  | x :: xs => insertAsc x (sortAsc xs)

/-- DEFAULT_STOPWORDS from the source (38 distinct words; the set
literal is kept as the list of its elements). -/
def DEFAULT_STOPWORDS : List (List Char) :=
  ["的", "了", "和", "是", "就", "都", "而", "及", "与", "着",
   "或", "一个", "没有", "我们", "你们", "他们", "她们", "它们",
   "这个", "那个", "这些", "那些", "不", "在", "人", "我", "有",
   "个", "好", "来", "去", "也", "很", "但", "吧", "啊", "呢", "啦"].map String.toList

/-- The stopword parse in load_stopwords: the stripped nonblank lines
(set membership semantics are by exact match on these). -/
def parseStopwords (content : List Char) : List (List Char) :=
  (splitlines content).filterMap fun line =>
    if (pyStrip line).isEmpty then none else some (pyStrip line)

/-- load_stopwords from the source: a truthy file parses as the stopword
set; a missing file or an empty one (falsy content) is replaced by the
sorted default set, which is returned when the write succeeds and the
empty set otherwise.  The attempted write, if any, is also returned. -/
def load_stopwords (fs : FS) : List (List Char) × FS × List WriteAttempt :=
  if truthyOpt (read_file fs STOPWORDS_FILE none false).1 then
    (parseStopwords ((read_file fs STOPWORDS_FILE none false).1.getD []),
      (read_file fs STOPWORDS_FILE none false).2, [])
  else
    ((if (write_file (read_file fs STOPWORDS_FILE none false).2 STOPWORDS_FILE
          (joinNL (sortAsc DEFAULT_STOPWORDS))).2 then DEFAULT_STOPWORDS else []),
      (write_file (read_file fs STOPWORDS_FILE none false).2 STOPWORDS_FILE
        (joinNL (sortAsc DEFAULT_STOPWORDS))).1,
      [WriteAttempt.mk STOPWORDS_FILE (joinNL (sortAsc DEFAULT_STOPWORDS))
        (write_file (read_file fs STOPWORDS_FILE none false).2 STOPWORDS_FILE
          (joinNL (sortAsc DEFAULT_STOPWORDS))).2])

/-! ### Keyword extraction (modelled from the specification)
extract_keywords delegates to jieba.analyse; the TF-IDF scorer (spec
section 4.6) and the TextRank scorer (spec section 4.7) are modelled
from the specification, with jieba's corpus IDF table, its candidate
stop filter and the convergence threshold as parameters of the model. -/

/-- Modelled from the spec: the static configuration the external
library carries - its base dictionary, the corpus IDF table with the
default IDF for absent words, the candidate stop-filter set, and the
TextRank convergence threshold. -/
structure JiebaCfg where
  lexBase : List (List Char × Nat)
  idf : List (List Char × ℚ)
  idfDefault : ℚ
  stopFilter : List (List Char)
  epsilon : ℚ

/-- The IDF of a word: looked up in the corpus table, the configured
default when absent. -/
def idfOf (cfg : JiebaCfg) (w : List Char) : ℚ :=
  (((cfg.idf.find? fun e => e.1 == w).map fun e => e.2).getD cfg.idfDefault)

/-- Modelled from the spec: keyword candidates are the precise-mode
tokens of the text with single-character words and stop-filtered words
excluded. -/
def keyword_candidates (cfg : JiebaCfg) (lex : Lexicon) (text : List Char) :
    List (List Char) :=
  (lcut lex text).filter fun w => 2 ≤ w.length && !cfg.stopFilter.contains w

/-- Modelled from the spec: TF-IDF scoring
(jieba.analyse.extract_tags): weight = term frequency x IDF, the top
topK words by weight descending, ties by first appearance. -/
def extract_tags (cfg : JiebaCfg) (lex : Lexicon) (text : List Char) (topK : Nat) :
    List (List Char × ℚ) :=
  (sortDesc Prod.snd
    ((firstOccsFrom [] (keyword_candidates cfg lex text)).map fun w =>
      (w, (((keyword_candidates cfg lex text).count w : ℚ) /
            ((keyword_candidates cfg lex text).length : ℚ)) * idfOf cfg w))).take topK

/-- The co-occurring ordered pairs of distinct words within the sliding
window of size 5 over the token stream. -/
def trPairs (tokens : List (List Char)) : List (List Char × List Char) :=
  (List.range tokens.length).flatMap fun i =>
    (List.range 4).filterMap fun d =>
      match tokens.get? i, tokens.get? (i + d + 1) with
      | some a, some b => if a ≠ b then some (a, b) else none
      | _, _ => none

/-- The undirected co-occurrence edge weight between two words. -/
def edgeW (pairs : List (List Char × List Char)) (a b : List Char) : Nat :=
  pairs.countP fun p => (p.1 == a && p.2 == b) || (p.1 == b && p.2 == a)

/-- The total incident edge weight of a node. -/
def degW (pairs : List (List Char × List Char)) (nodes : List (List Char))
    (a : List Char) : ℚ :=
  ((nodes.map fun b => edgeW pairs a b).sum : Nat)

/-- The score of a word in a score table (0 when absent). -/
def scoreOf (s : List (List Char × ℚ)) (w : List Char) : ℚ :=
  (((s.find? fun e => e.1 == w).map fun e => e.2).getD 0)

/-- One TextRank iteration with damping d:
score'(i) = (1 - d) + d * sum over neighbours j of
(weight(i,j) / incident_weight(j)) * score(j). -/
def trStep (damping : ℚ) (pairs : List (List Char × List Char))
    (nodes : List (List Char)) (s : List (List Char × ℚ)) : List (List Char × ℚ) :=
  nodes.map fun i =>
    (i, (1 - damping) + damping * (nodes.map fun j =>
        if 0 < edgeW pairs i j then
          ((edgeW pairs i j : Nat) : ℚ) / degW pairs nodes j * scoreOf s j
        else 0).sum)

/-- The largest absolute score change between two score tables. -/
def maxAbsDiff (s t : List (List Char × ℚ)) : ℚ :=
  ((s.zip t).map fun p => |p.1.2 - p.2.2|).foldl max 0

/-- Iterate trStep until the maximum absolute change falls below
epsilon or the iteration budget is exhausted, whichever comes first. -/
def trLoop (damping eps : ℚ) (pairs : List (List Char × List Char))
    (nodes : List (List Char)) : Nat → List (List Char × ℚ) → List (List Char × ℚ)
  | 0, s => s
  | n + 1, s =>
    if maxAbsDiff s (trStep damping pairs nodes s) < eps then trStep damping pairs nodes s
    else trLoop damping eps pairs nodes n (trStep damping pairs nodes s)

/-- Modelled from the spec: TextRank scoring (jieba.analyse.textrank):
the co-occurrence graph over a window of 5 on the candidate tokens,
scores initialized to 1 and iterated with damping 0.85 for at most 100
rounds or until convergence, the top topK words by final score
descending, ties by first appearance. -/
def textrank (cfg : JiebaCfg) (lex : Lexicon) (text : List Char) (topK : Nat) :
    List (List Char × ℚ) :=
  (sortDesc Prod.snd
    (trLoop (17 / 20) cfg.epsilon (trPairs (keyword_candidates cfg lex text))
      (firstOccsFrom [] (keyword_candidates cfg lex text)) 100
      ((firstOccsFrom [] (keyword_candidates cfg lex text)).map fun w =>
        (w, (1 : ℚ))))).take topK

/-- extract_keywords from the source: TextRank when method.lower() is
"textrank", TF-IDF otherwise. -/
def extract_keywords (cfg : JiebaCfg) (lex : Lexicon) (text : List Char)
    (method : String) (topK : Nat) : List (List Char × ℚ) :=
  if method.toLower == "textrank" then textrank cfg lex text topK
  else extract_tags cfg lex text topK

/-! ### Result formatting and persistence -/

/-- The decimal digits of a natural number. -/
def natChars (n : Nat) : List Char := (Nat.repr n).toList

/-- Zero-pad on the left to n characters. -/
def padZero (l : List Char) (n : Nat) : List Char :=
  List.replicate (n - l.length) '0' ++ l

/-- A rational formatted as fixed-point with 6 decimals (the format
spec .6f applied to the score). -/
def formatQ6 (q : ℚ) : List Char :=
  (if q < 0 then ['-'] else []) ++
    natChars ((⌊|q| * 1000000 + 1 / 2⌋).toNat / 1000000) ++
    '.' :: padZero (natChars ((⌊|q| * 1000000 + 1 / 2⌋).toNat % 1000000)) 6

/-- The two shapes save_results accepts: word-frequency rows (the
is_keywords flag unset) and word-weight rows (the flag set). -/
inductive RData where
  | freq (l : List (List Char × Nat))
  | kw (l : List (List Char × ℚ))

/-- The newline-joined word: value lines save_results builds, the value
formatted as an integer count or a 6-decimal weight according to the
is_keywords flag encoded in the RData constructor. -/
def renderRows : RData → List Char
  | RData.freq l => joinNL (l.map fun row => row.1 ++ ':' :: ' ' :: natChars row.2)
  | RData.kw l => joinNL (l.map fun row => row.1 ++ ':' :: ' ' :: formatQ6 row.2)

/-- save_results from the source: format the rows as word: value lines
and write them through write_file, reporting success. -/
def save_results (fs : FS) (data : RData) (p : String) : FS × WriteAttempt :=
  ((write_file fs p (renderRows data)).1,
    WriteAttempt.mk p (renderRows data) (write_file fs p (renderRows data)).2)

/-- The custom dictionary words main adds before segmentation. -/
def custom_words : List (List Char) :=
  ["人工智能", "机器学习", "深度学习", "自然语言处理"].map String.toList

/-- The run lexicon: the base dictionary with the custom words added as
dominating (atomic) entries. -/
def runLexicon (cfg : JiebaCfg) : Lexicon :=
  Lexicon.mk (cfg.lexBase ++ custom_words.map fun w => (w, 1000000))

/-- The pipeline stages of main after the input checks, on the decoded
raw input: preprocess, load stopwords (possibly creating the default
file), segment precisely, filter, count, rank, and write the three
output artifacts in order, collecting every attempted write.  (The
search-mode segmentation main also computes is only printed and feeds
nothing downstream.) -/
def mainStages (cfg : JiebaCfg) (fs₀ : FS) (raw : List Char) : FS × List WriteAttempt :=
  let text := preprocess_text raw
  let ls := load_stopwords fs₀
  let filtered_words :=
    filter_stopwords (segment_text (runLexicon cfg) text "default") ls.1
  let s₁ := save_results ls.2.1
    (RData.freq (sortDesc Prod.snd (counter filtered_words))) WORD_FREQ_FILE
  let s₂ := save_results s₁.1
    (RData.kw (extract_keywords cfg (runLexicon cfg) text "tfidf" 100))
    TOP_KEYWORDS_TFIDF_FILE
  let s₃ := save_results s₂.1
    (RData.kw (extract_keywords cfg (runLexicon cfg) text "textrank" 100))
    TOP_KEYWORDS_TEXTRANK_FILE
  (s₃.1, ls.2.2 ++ [s₁.2, s₂.2, s₃.2])

/-- main from the source, over the file-system model: abort when the
input file is absent or its content is falsy after decoding; otherwise
run the pipeline stages. -/
def runMain (cfg : JiebaCfg) (fs : FS) : FS × List WriteAttempt :=
  if fs.files INPUT_FILE = FileContent.absent then (fs, [])
  else if truthyOpt (read_file fs INPUT_FILE none false).1 = false then
    ((read_file fs INPUT_FILE none false).2, [])
  else
    mainStages cfg (read_file fs INPUT_FILE none false).2
      ((read_file fs INPUT_FILE none false).1.getD [])

/-! ### Concrete instances used by the witnesses -/

/-- A concrete configuration for the witnesses: empty base dictionary
and IDF table, convergence threshold 1/1000. -/
def cfgW : JiebaCfg := JiebaCfg.mk [] [] 0 [] (1 / 1000)

/-- A concrete file system: input.txt holds 的的, every other file is
absent, and word_frequency.txt alone is not writable. -/
def fsW : FS :=
  FS.mk (fun p => if p = INPUT_FILE then FileContent.utf8 ['的', '的'] else FileContent.absent)
    (fun p => !(p == WORD_FREQ_FILE))

/-- A concrete file system for the stopword-bootstrap witness: every
file absent, every path writable. -/
def fsStopAbsent : FS := FS.mk (fun _ => FileContent.absent) (fun _ => true)

/-- Concrete file systems for the C10 witness: one whose stopword file
is empty, one whose stopword file is two blank lines. -/
def fsStopEmpty : FS :=
  FS.mk (fun p => if p = STOPWORDS_FILE then FileContent.utf8 [] else FileContent.absent)
    (fun _ => true)

def fsStopBlank : FS :=
  FS.mk (fun p => if p = STOPWORDS_FILE then FileContent.utf8 [' ', '\n', ' ']
      else FileContent.absent)
    (fun _ => true)

/-! ## Theorems -/

theorem sub1_cons_none {c : Char} {cs : List Char} (h : tryMatch (c :: cs) = none) :
    sub1 (c :: cs) = c :: sub1 cs := by
  rw [sub1.eq_def]
  split
  · rename_i heq
    cases heq
  · rename_i c' cs' heq
    cases heq
    split
    · rename_i n heq2
      rw [h] at heq2
      cases heq2
    · rfl

theorem sub1_cons_some {c : Char} {cs : List Char} {n : Nat}
    (h : tryMatch (c :: cs) = some n) :
    sub1 (c :: cs) = sub1 ((c :: cs).drop n) := by
  rw [sub1.eq_def]
  split
  · rename_i heq
    cases heq
  · rename_i c' cs' heq
    cases heq
    split
    · rename_i m heq2
      rw [h] at heq2
      cases heq2
      rfl
    · rename_i heq2
      rw [h] at heq2
      cases heq2

theorem sub1_nil : sub1 [] = [] := by
  rw [sub1.eq_def]

theorem sub1_sublist (l : List Char) : List.Sublist (sub1 l) l := by
  match l with
  | [] =>
    rw [sub1_nil]
  | c :: cs =>
    match h : tryMatch (c :: cs) with
    | some n =>
      rw [sub1_cons_some h]
      exact (sub1_sublist ((c :: cs).drop n)).trans (List.drop_sublist n (c :: cs))
    | none =>
      rw [sub1_cons_none h]
      exact (sub1_sublist cs).cons₂ c
termination_by l.length
decreasing_by
  · have := tryMatch_pos h
    simp only [List.length_drop, List.length_cons]
    omega
  · simp

/-! ### Character-class lemmas -/

theorem cjk_not_space {c : Char} (h : isCJK c = true) : isSpace c = false := by
  cases hb : isSpace c
  · rfl
  · exfalso
    simp only [isCJK, Bool.and_eq_true, decide_eq_true_eq] at h
    have hmem : c.toNat ∈ pySpaceCodes := by
      simpa [isSpace] using hb
    simp only [pySpaceCodes, List.mem_cons, List.not_mem_nil, or_false] at hmem
    omega

theorem cjk_not_digit {c : Char} (h : isCJK c = true) : isDigitChar c = false := by
  cases hb : isDigitChar c
  · rfl
  · exfalso
    simp only [isCJK, Bool.and_eq_true, decide_eq_true_eq] at h
    simp only [isDigitChar, Bool.and_eq_true, decide_eq_true_eq] at hb
    omega

theorem cjk_not_latin {c : Char} (h : isCJK c = true) : isLatin c = false := by
  cases hb : isLatin c
  · rfl
  · exfalso
    simp only [isCJK, Bool.and_eq_true, decide_eq_true_eq] at h
    simp only [isLatin, Bool.or_eq_true, Bool.and_eq_true, decide_eq_true_eq] at hb
    omega

theorem cjk_ne_lt {c : Char} (h : isCJK c = true) : c ≠ '<' := by
  intro he
  subst he
  revert h
  decide

/-- A character that is a CJK ideograph or a space starts no match of the
first-pass alternation. -/
theorem tryMatch_none_of_safe {c : Char} {cs : List Char}
    (h1 : c ≠ '<') (h2 : isDigitChar c = false) (h3 : isLatin c = false) :
    tryMatch (c :: cs) = none := by
  have htag : matchTag (c :: cs) = none := by
    rw [matchTag.eq_def]
    split
    · rename_i rest heq
      injection heq with hc _
      exact absurd hc h1
    · rfl
  have h8 : ¬(List.take 8 (c :: cs) = "https://".toList) := by
    intro he
    rw [show ("https://".toList) = 'h' :: "ttps://".toList from rfl, List.take_succ_cons] at he
    injection he with hc _
    subst hc
    exact absurd h3 (by decide)
  have h7 : ¬(List.take 7 (c :: cs) = "http://".toList) := by
    intro he
    rw [show ("http://".toList) = 'h' :: "ttp://".toList from rfl, List.take_succ_cons] at he
    injection he with hc _
    subst hc
    exact absurd h3 (by decide)
  have hurl : matchURL (c :: cs) = none := by
    rw [matchURL.eq_def, if_neg h8, if_neg h7]
  have hdig : matchDigits (c :: cs) = none := by
    rw [matchDigits.eq_def]
    simp [List.takeWhile_cons, h2]
  have hlat : matchLatin (c :: cs) = none := by
    rw [matchLatin.eq_def]
    simp [List.takeWhile_cons, h3]
  simp [tryMatch, htag, hurl, hdig, hlat, Option.orElse]

theorem sub1_eq_self {l : List Char} (h : ∀ c ∈ l, isCJK c = true ∨ c = ' ') :
    sub1 l = l := by
  induction l with
  | nil => exact sub1_nil
  | cons c cs ih =>
    have hc := h c (List.mem_cons_self c cs)
    have hnone : tryMatch (c :: cs) = none := by
      rcases hc with hc | hc
      · exact tryMatch_none_of_safe (cjk_ne_lt hc) (cjk_not_digit hc) (cjk_not_latin hc)
      · subst hc
        exact tryMatch_none_of_safe (by decide) (by decide) (by decide)
    rw [sub1_cons_none hnone]
    rw [ih fun x hx => h x (List.mem_cons_of_mem c hx)]

/-! ### Facts about collapseWS and pyStrip -/

theorem collapseWS_nil : collapseWS [] = [] := by
  rw [collapseWS.eq_def]

theorem collapseWS_cons_space {c : Char} {cs : List Char} (h : isSpace c = true) :
    collapseWS (c :: cs) = ' ' :: collapseWS (cs.dropWhile isSpace) := by
  rw [collapseWS.eq_def]
  simp [h]

theorem collapseWS_cons_nospace {c : Char} {cs : List Char} (h : isSpace c = false) :
    collapseWS (c :: cs) = c :: collapseWS cs := by
  rw [collapseWS.eq_def]
  simp [h]

theorem mem_collapseWS (l : List Char) :
    ∀ x ∈ collapseWS l, (x ∈ l ∧ isSpace x = false) ∨ x = ' ' := by
  match l with
  | [] =>
    rw [collapseWS_nil]
    intro x hx
    cases hx
  | c :: cs =>
    cases hsp : isSpace c with
    | true =>
      rw [collapseWS_cons_space hsp]
      intro x hx
      rcases List.mem_cons.mp hx with hx | hx
      · right; exact hx
      · rcases mem_collapseWS (cs.dropWhile isSpace) x hx with ⟨h1, h2⟩ | h1
        · exact Or.inl ⟨List.mem_cons_of_mem c ((List.dropWhile_sublist isSpace).subset h1), h2⟩
        · right; exact h1
    | false =>
      rw [collapseWS_cons_nospace hsp]
      intro x hx
      rcases List.mem_cons.mp hx with hx | hx
      · subst hx; exact Or.inl ⟨List.mem_cons_self x cs, hsp⟩
      · rcases mem_collapseWS cs x hx with ⟨h1, h2⟩ | h1
        · exact Or.inl ⟨List.mem_cons_of_mem c h1, h2⟩
        · right; exact h1
termination_by l.length
decreasing_by
  all_goals
    have h9 := (List.dropWhile_sublist (l := cs) isSpace).length_le
    simp only [List.length_cons]
    omega

theorem head_dropWhile_not {p : Char → Bool} {l : List Char} {c : Char}
    (h : (l.dropWhile p).head? = some c) : p c = false := by
  induction l with
  | nil => cases h
  | cons x xs ih =>
    rw [List.dropWhile_cons] at h
    split at h
    · exact ih h
    · rename_i hx
      rw [List.head?_cons] at h
      injection h with h
      subst h
      exact Bool.eq_false_iff.mpr hx

theorem collapseWS_head_nospace {l : List Char} {c : Char} (hc : l.head? = some c)
    (h : isSpace c = false) : (collapseWS l).head? = some c := by
  match l with
  | [] => cases hc
  | x :: xs =>
    rw [List.head?_cons] at hc
    injection hc with hc
    subst hc
    rw [collapseWS_cons_nospace h, List.head?_cons]

theorem chain_collapseWS (l : List Char) :
    List.Chain' (fun a b => ¬(isSpace a = true ∧ isSpace b = true)) (collapseWS l) := by
  match l with
  | [] =>
    rw [collapseWS_nil]
    exact List.chain'_nil
  | c :: cs =>
    cases hsp : isSpace c with
    | false =>
      rw [collapseWS_cons_nospace hsp]
      rw [List.chain'_cons']
      refine ⟨?_, chain_collapseWS cs⟩
      intro y _ hand
      rw [hsp] at hand
      exact absurd hand.1 (by simp)
    | true =>
      rw [collapseWS_cons_space hsp]
      rw [List.chain'_cons']
      refine ⟨?_, chain_collapseWS (cs.dropWhile isSpace)⟩
      intro y hy hand
      have hy' : (collapseWS (cs.dropWhile isSpace)).head? = some y := hy
      have hyn : isSpace y = false := by
        match hd : cs.dropWhile isSpace with
        | [] =>
          rw [hd, collapseWS_nil] at hy'
          cases hy'
        | z :: zs =>
          have hz : isSpace z = false :=
            head_dropWhile_not (l := cs) (by rw [hd]; rfl)
          rw [hd, collapseWS_cons_nospace hz, List.head?_cons] at hy'
          injection hy' with hy'
          subst hy'
          exact hz
      rw [hyn] at hand
      exact absurd hand.2 (by simp)
termination_by l.length
decreasing_by
  all_goals
    have h9 := (List.dropWhile_sublist (l := cs) isSpace).length_le
    simp only [List.length_cons]
    omega

theorem collapseWS_eq_self {l : List Char}
    (hch : List.Chain' (fun a b => ¬(isSpace a = true ∧ isSpace b = true)) l)
    (hc : ∀ c ∈ l, isSpace c = false ∨ c = ' ') : collapseWS l = l := by
  match l with
  | [] => exact collapseWS_nil
  | c :: cs =>
    cases hsp : isSpace c with
    | false =>
      rw [collapseWS_cons_nospace hsp]
      have htl : List.Chain' (fun a b => ¬(isSpace a = true ∧ isSpace b = true)) cs := hch.tail
      rw [collapseWS_eq_self htl fun x hx => hc x (List.mem_cons_of_mem c hx)]
    | true =>
      have hceq : c = ' ' := by
        rcases hc c (List.mem_cons_self c cs) with h | h
        · rw [hsp] at h; cases h
        · exact h
      rw [collapseWS_cons_space hsp]
      have hdw : cs.dropWhile isSpace = cs := by
        match cs with
        | [] => rfl
        | x :: xs =>
          have hrel := (List.chain'_cons.mp hch).1
          have hx : isSpace x = false := by
            cases hb : isSpace x
            · rfl
            · exact absurd ⟨hsp, hb⟩ hrel
          rw [List.dropWhile_cons, if_neg (by simp [hx])]
      rw [hdw, hceq]
      have htl : List.Chain' (fun a b => ¬(isSpace a = true ∧ isSpace b = true)) cs := hch.tail
      rw [collapseWS_eq_self htl fun x hx => hc x (List.mem_cons_of_mem c hx)]
termination_by l.length
decreasing_by
  all_goals simp

theorem pyStrip_infixOf (l : List Char) : List.IsInfix (pyStrip l) l :=
  (List.rdropWhile_prefix (l := l.dropWhile isSpace) isSpace).isInfix.trans
    (List.dropWhile_suffix isSpace).isInfix

theorem pyStrip_head_nospace {l : List Char} {c : Char} (h : (pyStrip l).head? = some c) :
    isSpace c = false := by
  obtain ⟨t, ht⟩ := List.rdropWhile_prefix (l := l.dropWhile isSpace) isSpace
  apply head_dropWhile_not (l := l) (p := isSpace)
  rw [← ht]
  unfold pyStrip at h
  match hrd : (l.dropWhile isSpace).rdropWhile isSpace with
  | [] =>
    rw [hrd] at h
    cases h
  | x :: xs =>
    rw [hrd] at h
    simpa using h

theorem pyStrip_last_nospace {l : List Char} {c : Char} (h : (pyStrip l).getLast? = some c) :
    isSpace c = false := by
  have hne : pyStrip l ≠ [] := by
    intro he
    rw [he] at h
    cases h
  have hlast := List.getLast?_eq_getLast (pyStrip l) hne
  rw [hlast] at h
  injection h with h
  have h3 : ¬isSpace ((pyStrip l).getLast hne) = true :=
    List.rdropWhile_last_not (l := l.dropWhile isSpace) (p := isSpace) hne
  rw [h] at h3
  exact Bool.eq_false_iff.mpr h3

theorem pyStrip_eq_self {l : List Char}
    (hh : ∀ c, l.head? = some c → isSpace c = false)
    (hl : ∀ c, l.getLast? = some c → isSpace c = false) : pyStrip l = l := by
  unfold pyStrip
  have h1 : l.dropWhile isSpace = l := by
    match l with
    | [] => rfl
    | x :: xs =>
      have := hh x rfl
      rw [List.dropWhile_cons, if_neg (by simp [this])]
  rw [h1]
  rw [List.rdropWhile_eq_self_iff]
  intro hne
  have := hl (l.getLast hne) (List.getLast?_eq_getLast l hne)
  simp [this]

/-! ### The normalization invariants of preprocess_text -/

theorem preprocess_chars (t : List Char) :
    ∀ c ∈ preprocess_text t, isCJK c = true ∨ c = ' ' := by
  intro c hc
  have h1 : c ∈ collapseWS (sub2 (sub1 t)) := (pyStrip_infixOf _).subset hc
  rcases mem_collapseWS _ c h1 with ⟨h2, _⟩ | h2
  · unfold sub2 at h2
    rcases List.mem_map.mp h2 with ⟨a, _, ha⟩
    by_cases hcjk : isCJK a = true
    · left
      rw [← ha]
      simpa [hcjk] using hcjk
    · right
      rw [← ha]
      simp [hcjk]
  · right; exact h2

theorem preprocess_head (t : List Char) :
    ∀ c, (preprocess_text t).head? = some c → isSpace c = false :=
  fun _ h => pyStrip_head_nospace h

theorem preprocess_last (t : List Char) :
    ∀ c, (preprocess_text t).getLast? = some c → isSpace c = false :=
  fun _ h => pyStrip_last_nospace h

theorem preprocess_chain (t : List Char) :
    List.Chain' (fun a b => ¬(isSpace a = true ∧ isSpace b = true)) (preprocess_text t) :=
  List.Chain'.infix (chain_collapseWS (sub2 (sub1 t))) (pyStrip_infixOf _)

theorem preprocess_eq_self {l : List Char}
    (hc : ∀ c ∈ l, isCJK c = true ∨ c = ' ')
    (hh : ∀ c, l.head? = some c → isSpace c = false)
    (hl : ∀ c, l.getLast? = some c → isSpace c = false)
    (hch : List.Chain' (fun a b => ¬(isSpace a = true ∧ isSpace b = true)) l) :
    preprocess_text l = l := by
  unfold preprocess_text
  rw [sub1_eq_self hc]
  have h2 : sub2 l = l := by
    unfold sub2
    rw [List.map_congr_left (g := id) ?_, List.map_id]
    intro a ha
    rcases hc a ha with h | h
    · simp [h]
    · subst h; rfl
  rw [h2]
  rw [collapseWS_eq_self hch ?hsp]
  case hsp =>
    intro c hcm
    rcases hc c hcm with h | h
    · exact Or.inl (cjk_not_space h)
    · exact Or.inr h
  exact pyStrip_eq_self hh hl

theorem collapseWS_all_space {l : List Char} (h : ∀ c ∈ l, isSpace c = true) :
    collapseWS l = if l = [] then [] else [' '] := by
  match l with
  | [] => simpa using collapseWS_nil
  | c :: cs =>
    rw [collapseWS_cons_space (h c (List.mem_cons_self c cs))]
    have hd : cs.dropWhile isSpace = [] :=
      List.dropWhile_eq_nil_iff.mpr fun x hx => h x (List.mem_cons_of_mem c hx)
    rw [hd, collapseWS_nil]
    simp

theorem preprocess_no_cjk {t : List Char} (h : ∀ c ∈ t, isCJK c = false) :
    preprocess_text t = [] := by
  unfold preprocess_text
  have hall : ∀ c ∈ sub2 (sub1 t), isSpace c = true := by
    intro c hc
    unfold sub2 at hc
    rcases List.mem_map.mp hc with ⟨a, ha, hfa⟩
    have hna : isCJK a = false := h a ((sub1_sublist t).subset ha)
    rw [← hfa]
    simp [hna, isSpace, pySpaceCodes]
  rw [collapseWS_all_space hall]
  split
  · rfl
  · decide

/-- C1: normalization is idempotent: for every input string t,
preprocess_text (preprocess_text t) = preprocess_text t. -/
theorem normalize_idempotent (t : List Char) :
    preprocess_text (preprocess_text t) = preprocess_text t :=
  preprocess_eq_self (preprocess_chars t) (preprocess_head t) (preprocess_last t)
    (preprocess_chain t)

/-- C2: for every input string, preprocess_text yields only CJK ideographs
and spaces, with no leading space, no trailing space and no two
consecutive spaces; input all of whose characters are non-CJK (in
particular empty input) yields the empty string. -/
theorem normalize_output_shape (t : List Char) :
    ((preprocess_text t).all fun c => isCJK c || c == ' ') = true ∧
    (preprocess_text t).takeWhile (fun c => c == ' ') = [] ∧
    (preprocess_text t).reverse.takeWhile (fun c => c == ' ') = [] ∧
    List.Chain' (fun a b => ¬(a = ' ' ∧ b = ' ')) (preprocess_text t) ∧
    ((t.all fun c => !isCJK c) = true → preprocess_text t = []) := by
  refine ⟨?_, ?_, ?_, ?_, ?_⟩
  · rw [List.all_eq_true]
    intro c hc
    rcases preprocess_chars t c hc with h | h <;> simp [h]
  · cases hh : preprocess_text t with
    | nil => rfl
    | cons c cs =>
      rw [List.takeWhile_cons]
      have hs : isSpace c = false := preprocess_head t c (by rw [hh]; rfl)
      have hcne : ¬(c = ' ') := by
        intro he
        subst he
        revert hs
        decide
      simp [hcne]
  · cases hh : (preprocess_text t).reverse with
    | nil => rfl
    | cons c cs =>
      rw [List.takeWhile_cons]
      have hlast : (preprocess_text t).getLast? = some c := by
        rw [← List.head?_reverse, hh]
        rfl
      have hs : isSpace c = false := preprocess_last t c hlast
      have hcne : ¬(c = ' ') := by
        intro he
        subst he
        revert hs
        decide
      simp [hcne]
  · refine List.Chain'.imp ?_ (preprocess_chain t)
    intro a b hr hab
    refine hr ⟨?_, ?_⟩
    · rw [hab.1]; decide
    · rw [hab.2]; decide
  · intro hall
    apply preprocess_no_cjk
    intro c hc
    have := List.all_eq_true.mp hall c hc
    simpa using this

/-! ### filter_stopwords -/

theorem filter_stopwords_sublist (wl sw : List (List Char)) :
    List.Sublist (filter_stopwords wl sw) wl :=
  List.filter_sublist wl

theorem mem_filter_stopwords (wl sw : List (List Char)) (w : List Char) :
    w ∈ filter_stopwords wl sw ↔ w ∈ wl ∧ pyStrip w ≠ [] ∧ w ∉ sw := by
  unfold filter_stopwords
  rw [List.mem_filter]
  simp [List.isEmpty_iff]

theorem count_filter_stopwords (wl sw : List (List Char)) (w : List Char) :
    (filter_stopwords wl sw).count w =
      if pyStrip w ≠ [] ∧ w ∉ sw then wl.count w else 0 := by
  by_cases hkeep : pyStrip w ≠ [] ∧ w ∉ sw
  · rw [if_pos hkeep]
    exact List.count_filter (by simp [List.isEmpty_iff, hkeep.1, hkeep.2])
  · rw [if_neg hkeep]
    rw [List.count_eq_zero]
    intro hmem
    exact hkeep ⟨((mem_filter_stopwords wl sw w).mp hmem).2.1,
      ((mem_filter_stopwords wl sw w).mp hmem).2.2⟩

/-- C4, counterexample to the claim as stated: the token given by a space
followed by 的, with stopword set containing exactly 的, trims to 的,
which is in the stopword set - the claim's removal condition holds - yet
filter_stopwords keeps it, because the source tests membership on the
untrimmed word.  filter_stopwords_spec is the claim's reading. -/
theorem filter_stopwords_trim_counterexample :
    pyStrip [' ', '的'] = ['的'] ∧
    filter_stopwords [[' ', '的']] [['的']] = [[' ', '的']] ∧
    filter_stopwords_spec [[' ', '的']] [['的']] = [] := by
  decide

/-- C4 (amended): filter_stopwords removes exactly those tokens whose
word trims to the empty string or is itself (untrimmed) present by exact
match in the stopword set; survivors keep their original order with no
other transformation (the output is a sublist of the input, membership
and multiplicities are exactly characterized); consequently no output
token is empty and no output token is a stopword-set member. -/
theorem filter_stopwords_characterization (wl sw : List (List Char)) :
    List.Sublist (filter_stopwords wl sw) wl ∧
    (∀ w, w ∈ filter_stopwords wl sw ↔ w ∈ wl ∧ pyStrip w ≠ [] ∧ w ∉ sw) ∧
    (∀ w, (filter_stopwords wl sw).count w =
      if pyStrip w ≠ [] ∧ w ∉ sw then wl.count w else 0) :=
  ⟨filter_stopwords_sublist wl sw, mem_filter_stopwords wl sw, count_filter_stopwords wl sw⟩

/-! ### collections.Counter and sorted(..., key=lambda x: x[1], reverse=True) -/

theorem bump_keys {α : Type} [DecidableEq α] (acc : List (α × Nat)) (w : α) :
    (bump acc w).map Prod.fst =
      if w ∈ acc.map Prod.fst then acc.map Prod.fst else acc.map Prod.fst ++ [w] := by
  induction acc with
  | nil => simp [bump]
  | cons p rest ih =>
    obtain ⟨k, n⟩ := p
    by_cases hk : k = w
    · subst hk
      simp [bump]
    · simp only [bump, if_neg hk, List.map_cons]
      rw [ih]
      by_cases hw : w ∈ rest.map Prod.fst
      · simp [hw, hk, Ne.symm hk]
      · simp [hw, hk, Ne.symm hk]

theorem bump_sum {α : Type} [DecidableEq α] (acc : List (α × Nat)) (w : α) :
    ((bump acc w).map Prod.snd).sum = ((acc.map Prod.snd).sum) + 1 := by
  induction acc with
  | nil => simp [bump]
  | cons p rest ih =>
    obtain ⟨k, n⟩ := p
    by_cases hk : k = w
    · subst hk
      simp [bump]
      omega
    · simp only [bump, if_neg hk, List.map_cons, List.sum_cons]
      rw [ih]
      omega

theorem counter_sum_aux {α : Type} [DecidableEq α] (ws : List α) :
    ∀ acc : List (α × Nat),
      ((ws.foldl bump acc).map Prod.snd).sum = ((acc.map Prod.snd).sum) + ws.length := by
  induction ws with
  | nil => intro acc; simp
  | cons w ws ih =>
    intro acc
    rw [List.foldl_cons, ih (bump acc w), bump_sum]
    simp only [List.length_cons]
    omega

theorem firstOccsFrom_congr {α : Type} [DecidableEq α] (l : List α) :
    ∀ s₁ s₂ : List α, (∀ x, x ∈ s₁ ↔ x ∈ s₂) →
      firstOccsFrom s₁ l = firstOccsFrom s₂ l := by
  induction l with
  | nil => intro s₁ s₂ _; rfl
  | cons x xs ih =>
    intro s₁ s₂ hs
    simp only [firstOccsFrom]
    by_cases hx : x ∈ s₁
    · rw [if_pos hx, if_pos ((hs x).mp hx)]
      exact ih s₁ s₂ hs
    · rw [if_neg hx, if_neg (fun hc => hx ((hs x).mpr hc))]
      congr 1
      apply ih
      intro y
      simp [hs y]

theorem counter_keys_aux {α : Type} [DecidableEq α] (ws : List α) :
    ∀ acc : List (α × Nat),
      (ws.foldl bump acc).map Prod.fst =
        acc.map Prod.fst ++ firstOccsFrom (acc.map Prod.fst) ws := by
  induction ws with
  | nil => intro acc; simp [firstOccsFrom]
  | cons w ws ih =>
    intro acc
    rw [List.foldl_cons, ih (bump acc w), bump_keys]
    simp only [firstOccsFrom]
    by_cases hw : w ∈ acc.map Prod.fst
    · rw [if_pos hw, if_pos hw]
    · rw [if_neg hw, if_neg hw]
      rw [List.append_assoc]
      simp only [List.singleton_append]
      congr 2
      apply firstOccsFrom_congr
      intro y
      simp [or_comm]

theorem mem_firstOccsFrom {α : Type} [DecidableEq α] (l : List α) :
    ∀ (seen : List α) (x : α), x ∈ firstOccsFrom seen l ↔ x ∈ l ∧ x ∉ seen := by
  induction l with
  | nil => intro seen x; simp [firstOccsFrom]
  | cons y ys ih =>
    intro seen x
    simp only [firstOccsFrom]
    by_cases hy : y ∈ seen
    · rw [if_pos hy, ih]
      constructor
      · rintro ⟨h1, h2⟩
        exact ⟨List.mem_cons_of_mem y h1, h2⟩
      · rintro ⟨h1, h2⟩
        rcases List.mem_cons.mp h1 with h1 | h1
        · subst h1; exact absurd hy h2
        · exact ⟨h1, h2⟩
    · rw [if_neg hy]
      constructor
      · intro hx
        rcases List.mem_cons.mp hx with hx | hx
        · subst hx; exact ⟨List.mem_cons_self x ys, hy⟩
        · rcases (ih (y :: seen) x).mp hx with ⟨h1, h2⟩
          refine ⟨List.mem_cons_of_mem y h1, fun hc => h2 (List.mem_cons_of_mem y hc)⟩
      · rintro ⟨h1, h2⟩
        rcases List.mem_cons.mp h1 with h1 | h1
        · subst h1; exact List.mem_cons_self x _
        · by_cases hxy : x = y
          · subst hxy; exact List.mem_cons_self x _
          · refine List.mem_cons_of_mem y ((ih (y :: seen) x).mpr ⟨h1, ?_⟩)
            intro hc
            rcases List.mem_cons.mp hc with hc | hc
            · exact hxy hc
            · exact h2 hc

theorem firstOccsFrom_nodup {α : Type} [DecidableEq α] (l : List α) :
    ∀ seen : List α, (firstOccsFrom seen l).Nodup := by
  induction l with
  | nil => intro seen; simp [firstOccsFrom]
  | cons x xs ih =>
    intro seen
    simp only [firstOccsFrom]
    by_cases hx : x ∈ seen
    · rw [if_pos hx]; exact ih seen
    · rw [if_neg hx]
      refine List.nodup_cons.mpr ⟨?_, ih (x :: seen)⟩
      intro hc
      exact ((mem_firstOccsFrom xs (x :: seen) x).mp hc).2 (List.mem_cons_self x seen)

theorem counter_keys {α : Type} [DecidableEq α] (ws : List α) :
    (counter ws).map Prod.fst = firstOccsFrom [] ws := by
  unfold counter
  rw [counter_keys_aux]
  simp

/-- C5: the frequency table Counter(filtered_words) has pairwise distinct
keys, one per distinct word of the filtered list, and its counts sum to
the length of the filtered list. -/
theorem counter_invariant (ws : List (List Char)) :
    ((counter ws).map Prod.fst).Nodup ∧
    (∀ w, w ∈ (counter ws).map Prod.fst ↔ w ∈ ws) ∧
    ((counter ws).map Prod.snd).sum = ws.length := by
  refine ⟨?_, ?_, ?_⟩
  · rw [counter_keys]
    exact firstOccsFrom_nodup ws []
  · intro w
    rw [counter_keys, mem_firstOccsFrom]
    simp
  · unfold counter
    rw [counter_sum_aux]
    simp

theorem mem_insertDesc {α β : Type} [LinearOrder β] (key : α → β) (x : α) (l : List α) :
    ∀ z, z ∈ insertDesc key x l ↔ z = x ∨ z ∈ l := by
  induction l with
  | nil => intro z; simp [insertDesc]
  | cons y ys ih =>
    intro z
    simp only [insertDesc]
    split
    · simp [or_comm, or_assoc, or_left_comm]
    · rw [List.mem_cons, ih z, List.mem_cons]
      tauto

theorem pairwise_insertDesc {α β : Type} [LinearOrder β] (key : α → β) (x : α) (l : List α)
    (h : l.Pairwise fun a b => key b ≤ key a) :
    (insertDesc key x l).Pairwise fun a b => key b ≤ key a := by
  induction l with
  | nil => simp [insertDesc]
  | cons y ys ih =>
    simp only [insertDesc]
    split
    · rename_i hyx
      refine List.pairwise_cons.mpr ⟨?_, h⟩
      intro z hz
      rcases List.mem_cons.mp hz with rfl | hz
      · exact hyx
      · exact le_trans ((List.pairwise_cons.mp h).1 z hz) hyx
    · rename_i hyx
      have hxy : key x ≤ key y := le_of_not_le hyx
      refine List.pairwise_cons.mpr ⟨?_, ih (List.pairwise_cons.mp h).2⟩
      intro z hz
      rcases (mem_insertDesc key x ys z).mp hz with rfl | hz
      · exact hxy
      · exact (List.pairwise_cons.mp h).1 z hz

theorem pairwise_sortDesc {α β : Type} [LinearOrder β] (key : α → β) (l : List α) :
    (sortDesc key l).Pairwise fun a b => key b ≤ key a := by
  induction l with
  | nil => simp [sortDesc]
  | cons x xs ih =>
    simp only [sortDesc]
    exact pairwise_insertDesc key x _ ih

theorem filter_insertDesc {α β : Type} [LinearOrder β] [DecidableEq β] (key : α → β)
    (x : α) (k : β) (l : List α) :
    (insertDesc key x l).filter (fun a => key a == k) =
      (x :: l).filter (fun a => key a == k) := by
  induction l with
  | nil => rfl
  | cons y ys ih =>
    simp only [insertDesc]
    split
    · rfl
    · rename_i hyx
      have hxy : key x < key y := not_le.mp hyx
      by_cases hx : key x = k <;> by_cases hy : key y = k
      · exfalso
        rw [hx, hy] at hxy
        exact lt_irrefl k hxy
      · simp [List.filter_cons, hx, hy, ih]
      · simp [List.filter_cons, hx, hy, ih]
      · simp [List.filter_cons, hx, hy, ih]

theorem filter_sortDesc {α β : Type} [LinearOrder β] [DecidableEq β] (key : α → β)
    (k : β) (l : List α) :
    (sortDesc key l).filter (fun a => key a == k) = l.filter (fun a => key a == k) := by
  induction l with
  | nil => rfl
  | cons x xs ih =>
    simp only [sortDesc]
    rw [filter_insertDesc]
    simp [List.filter_cons, ih]

/-- C6: the ranked frequency output sorted(Counter(ws).items(),
key=count, reverse=True) is descending in the count, and - Python's sort
being stable and Counter iterating keys in first-insertion order - the
words of any fixed count appear in first-occurrence order of the
original token stream (a sublist of the first-occurrence enumeration);
the ranking is a pure function of its input, hence deterministic. -/
theorem ranked_frequency_sorted (ws : List (List Char)) (k : Nat) :
    (sortDesc Prod.snd (counter ws)).Pairwise (fun a b => b.2 ≤ a.2) ∧
    List.Sublist
      (((sortDesc Prod.snd (counter ws)).filter fun p => p.2 == k).map Prod.fst)
      (firstOccsFrom [] ws) := by
  constructor
  · exact pairwise_sortDesc Prod.snd (counter ws)
  · rw [filter_sortDesc]
    have h1 : List.Sublist ((counter ws).filter fun p => p.2 == k) (counter ws) :=
      List.filter_sublist (counter ws)
    have h2 := h1.map Prod.fst
    rw [counter_keys] at h2
    exact h2

/-! ### Segmentation (modelled from the specification)
segment_text delegates to jieba.lcut / jieba.lcut_for_search; the jieba
library is not part of this repository, so precise- and search-mode
segmentation are modelled from the specification (section 4.3). -/

theorem sublist_flatMap_cons {α : Type} (l : List α) (f : α → List α) :
    List.Sublist l (l.flatMap fun w => w :: f w) := by
  induction l with
  | nil => simp
  | cons x xs ih =>
    rw [List.flatMap_cons]
    exact List.Sublist.cons₂ x (ih.trans (List.sublist_append_right (f x) _))

/-- C3: for every lexicon and text, the precise-mode token list is a
sub-multiset of the search-mode token list; in particular the search-
mode token count is at least the precise-mode count. -/
theorem precise_submultiset_search (lex : Lexicon) (text : List Char) :
    (↑(segment_text lex text "default") : Multiset (List Char)) ≤
      ↑(segment_text lex text "search") ∧
    (segment_text lex text "default").length ≤ (segment_text lex text "search").length := by
  have hd : segment_text lex text "default" = lcut lex text := rfl
  have hs : segment_text lex text "search" = lcut_for_search lex text := rfl
  have hsub : List.Sublist (lcut lex text) (lcut_for_search lex text) :=
    sublist_flatMap_cons (lcut lex text) (subwords lex)
  constructor
  · rw [hd, hs]
    exact Multiset.coe_le.mpr hsub.subperm
  · rw [hd, hs]
    exact hsub.length_le

/-! ### The file-system model and the I/O boundary
A file is absent, decodable as UTF-8, decodable only by the GBK
fallback, or undecodable by both; writability of each path models
whether open-for-write raises.  Paths are the file names (the common
WORK_DIR prefix of the source is elided). -/

/-! ### Error handling at the I/O boundary -/

theorem read_file_pure (fs : FS) (p : String) : (read_file fs p none false).2 = fs := by
  unfold read_file
  cases fs.files p <;> rfl

theorem write_file_writable (fs : FS) (p : String) (content : List Char) :
    ((write_file fs p content).1).writable = fs.writable := by
  unfold write_file
  split <;> rfl

theorem write_file_ok (fs : FS) (p : String) (content : List Char) :
    (write_file fs p content).2 = fs.writable p := by
  unfold write_file
  split
  · rename_i h
    exact h.symm
  · rename_i h
    cases hb : fs.writable p
    · rfl
    · exact absurd hb h

theorem save_results_writable (fs : FS) (d : RData) (p : String) :
    ((save_results fs d p).1).writable = fs.writable :=
  write_file_writable fs p (renderRows d)

theorem save_results_attempt (fs : FS) (d : RData) (p : String) :
    (save_results fs d p).2 = WriteAttempt.mk p (renderRows d) (fs.writable p) := by
  unfold save_results
  rw [write_file_ok]

theorem load_stopwords_writable (fs : FS) :
    ((load_stopwords fs).2.1).writable = fs.writable := by
  unfold load_stopwords
  split
  · rw [read_file_pure]
  · rw [write_file_writable, read_file_pure]

/-- C7: when the input file is absent, is undecodable both as UTF-8 and
as GBK, or decodes to the empty string, main aborts before
load_stopwords and before any of the three output artifacts: no write
is attempted and the file system is unchanged. -/
theorem main_aborts_on_bad_input (cfg : JiebaCfg) (fs : FS)
    (h : fs.files INPUT_FILE = FileContent.absent ∨
         fs.files INPUT_FILE = FileContent.undecodable ∨
         fs.files INPUT_FILE = FileContent.utf8 [] ∨
         fs.files INPUT_FILE = FileContent.gbkOnly []) :
    (runMain cfg fs).2 = [] ∧ (runMain cfg fs).1 = fs := by
  have key : runMain cfg fs = (fs, []) := by
    rcases h with h | h | h | h
    · unfold runMain
      rw [if_pos h]
    all_goals
      unfold runMain
      rw [if_neg (by rw [h]; simp)]
      have hr : read_file fs INPUT_FILE none false = (none, fs) ∨
          read_file fs INPUT_FILE none false = (some [], fs) := by
        unfold read_file
        rw [h]
        simp
      rcases hr with hr | hr <;> rw [hr] <;> rfl
  rw [key]
  exact ⟨rfl, rfl⟩

/-- C7 witness: a file system with every file absent. -/
theorem main_aborts_on_bad_input_witness :
    (runMain (JiebaCfg.mk [] [] 0 [] (1 / 1000))
        (FS.mk (fun _ => FileContent.absent) (fun _ => true))).2 = [] ∧
    (runMain (JiebaCfg.mk [] [] 0 [] (1 / 1000))
        (FS.mk (fun _ => FileContent.absent) (fun _ => true))).1 =
      FS.mk (fun _ => FileContent.absent) (fun _ => true) :=
  main_aborts_on_bad_input (JiebaCfg.mk [] [] 0 [] (1 / 1000))
    (FS.mk (fun _ => FileContent.absent) (fun _ => true)) (Or.inl rfl)

/-- C9: with readable nonempty input, every write failure is caught by
write_file and surfaced as a boolean: the run's trace is the
stopword-file attempt (if any) followed by exactly one attempt per
output artifact, each success flag being that path's own writability,
independent of any other write failing - so a failed artifact never
aborts the run or suppresses the remaining artifacts. -/
theorem main_artifact_writes_independent (cfg : JiebaCfg) (fs : FS) (s : List Char)
    (hin : fs.files INPUT_FILE = FileContent.utf8 s ∨
           fs.files INPUT_FILE = FileContent.gbkOnly s)
    (hne : s ≠ []) :
    (runMain cfg fs).2.map (fun a => (a.path, a.ok)) =
      (load_stopwords fs).2.2.map (fun a => (a.path, a.ok)) ++
        [(WORD_FREQ_FILE, fs.writable WORD_FREQ_FILE),
         (TOP_KEYWORDS_TFIDF_FILE, fs.writable TOP_KEYWORDS_TFIDF_FILE),
         (TOP_KEYWORDS_TEXTRANK_FILE, fs.writable TOP_KEYWORDS_TEXTRANK_FILE)] := by
  have hread : read_file fs INPUT_FILE none false = (some s, fs) := by
    rcases hin with h | h <;> (unfold read_file; rw [h])
  have htr : truthyOpt (some s) = true := by
    simp [truthyOpt, hne]
  unfold runMain
  rw [if_neg (by rcases hin with h | h <;> rw [h] <;> simp)]
  rw [hread]
  dsimp only
  rw [if_neg (by rw [htr]; simp), Option.getD_some]
  simp only [mainStages, List.map_append]
  congr 1
  simp only [List.map_cons, List.map_nil, save_results_attempt, save_results_writable,
    load_stopwords_writable]

/-- C9 witness: on fsW the stopword default is written, the frequency
artifact fails, and both keyword artifacts are still attempted and
succeed. -/
theorem main_artifact_writes_independent_witness :
    (runMain cfgW fsW).2.map (fun a => (a.path, a.ok)) =
      (load_stopwords fsW).2.2.map (fun a => (a.path, a.ok)) ++
        [(WORD_FREQ_FILE, fsW.writable WORD_FREQ_FILE),
         (TOP_KEYWORDS_TFIDF_FILE, fsW.writable TOP_KEYWORDS_TFIDF_FILE),
         (TOP_KEYWORDS_TEXTRANK_FILE, fsW.writable TOP_KEYWORDS_TEXTRANK_FILE)] :=
  main_artifact_writes_independent cfgW fsW ['的', '的'] (Or.inl (by decide)) (by decide)

theorem load_stopwords_on_absent (fs : FS)
    (habs : fs.files STOPWORDS_FILE = FileContent.absent)
    (hw : fs.writable STOPWORDS_FILE = true) :
    load_stopwords fs =
      (DEFAULT_STOPWORDS,
        FS.mk (fun q => if q = STOPWORDS_FILE
            then FileContent.utf8 (joinNL (sortAsc DEFAULT_STOPWORDS))
            else fs.files q) fs.writable,
        [WriteAttempt.mk STOPWORDS_FILE (joinNL (sortAsc DEFAULT_STOPWORDS)) true]) := by
  have hread : read_file fs STOPWORDS_FILE none false = (none, fs) := by
    unfold read_file
    rw [habs]
    rfl
  unfold load_stopwords
  rw [hread]
  dsimp only
  rw [if_neg (by simp [truthyOpt])]
  unfold write_file
  rw [if_pos hw]
  rfl

theorem load_stopwords_on_empty (fs : FS)
    (hempty : fs.files STOPWORDS_FILE = FileContent.utf8 [])
    (hw : fs.writable STOPWORDS_FILE = true) :
    load_stopwords fs =
      (DEFAULT_STOPWORDS,
        FS.mk (fun q => if q = STOPWORDS_FILE
            then FileContent.utf8 (joinNL (sortAsc DEFAULT_STOPWORDS))
            else fs.files q) fs.writable,
        [WriteAttempt.mk STOPWORDS_FILE (joinNL (sortAsc DEFAULT_STOPWORDS)) true]) := by
  have hread : read_file fs STOPWORDS_FILE none false = (some [], fs) := by
    unfold read_file
    rw [hempty]
  unfold load_stopwords
  rw [hread]
  dsimp only
  rw [if_neg (by simp [truthyOpt])]
  unfold write_file
  rw [if_pos hw]
  rfl

theorem load_stopwords_on_utf8 (fs : FS) (s : List Char)
    (hfile : fs.files STOPWORDS_FILE = FileContent.utf8 s) (hs : s ≠ []) :
    load_stopwords fs = (parseStopwords s, fs, []) := by
  have hread : read_file fs STOPWORDS_FILE none false = (some s, fs) := by
    unfold read_file
    rw [hfile]
  unfold load_stopwords
  rw [hread]
  dsimp only
  rw [if_pos (by simp [truthyOpt, hs])]
  rfl

/-- C8: on an absent stopword file (with the path writable) the run uses
the 38-entry built-in default set, writes it to the stopword file sorted
ascending, and a second run reading the created file recovers exactly
the same stopword set while leaving the file system untouched and
attempting no write. -/
theorem load_stopwords_default_roundtrip (fs : FS)
    (habs : fs.files STOPWORDS_FILE = FileContent.absent)
    (hw : fs.writable STOPWORDS_FILE = true) :
    (load_stopwords fs).1 = DEFAULT_STOPWORDS ∧
    DEFAULT_STOPWORDS.length = 38 ∧
    ((load_stopwords fs).2.1).files STOPWORDS_FILE =
      FileContent.utf8 (joinNL (sortAsc DEFAULT_STOPWORDS)) ∧
    List.Pairwise (fun a b => lexLt a b = true) (sortAsc DEFAULT_STOPWORDS) ∧
    (load_stopwords ((load_stopwords fs).2.1)).2.1 = (load_stopwords fs).2.1 ∧
    (load_stopwords ((load_stopwords fs).2.1)).2.2 = [] ∧
    (∀ w, w ∈ (load_stopwords ((load_stopwords fs).2.1)).1 ↔ w ∈ DEFAULT_STOPWORDS) := by
  rw [load_stopwords_on_absent fs habs hw]
  dsimp only
  have hsecond :
      load_stopwords (FS.mk (fun q => if q = STOPWORDS_FILE
          then FileContent.utf8 (joinNL (sortAsc DEFAULT_STOPWORDS))
          else fs.files q) fs.writable) =
        (parseStopwords (joinNL (sortAsc DEFAULT_STOPWORDS)),
          FS.mk (fun q => if q = STOPWORDS_FILE
            then FileContent.utf8 (joinNL (sortAsc DEFAULT_STOPWORDS))
            else fs.files q) fs.writable, []) := by
    apply load_stopwords_on_utf8
    · dsimp only
      rw [if_pos rfl]
    · decide
  rw [hsecond]
  dsimp only
  refine ⟨rfl, by decide, by rw [if_pos rfl], by decide, rfl, rfl, ?_⟩
  intro w
  have hparse : parseStopwords (joinNL (sortAsc DEFAULT_STOPWORDS)) =
      sortAsc DEFAULT_STOPWORDS := by decide
  have hperm : List.Perm (sortAsc DEFAULT_STOPWORDS) DEFAULT_STOPWORDS := by decide
  rw [hparse]
  exact hperm.mem_iff

/-- C8 witness: the bootstrap and round-trip on fsStopAbsent. -/
theorem load_stopwords_default_roundtrip_witness :
    (load_stopwords fsStopAbsent).1 = DEFAULT_STOPWORDS ∧
    DEFAULT_STOPWORDS.length = 38 ∧
    ((load_stopwords fsStopAbsent).2.1).files STOPWORDS_FILE =
      FileContent.utf8 (joinNL (sortAsc DEFAULT_STOPWORDS)) ∧
    List.Pairwise (fun a b => lexLt a b = true) (sortAsc DEFAULT_STOPWORDS) ∧
    (load_stopwords ((load_stopwords fsStopAbsent).2.1)).2.1 =
      (load_stopwords fsStopAbsent).2.1 ∧
    (load_stopwords ((load_stopwords fsStopAbsent).2.1)).2.2 = [] ∧
    (∀ w, w ∈ (load_stopwords ((load_stopwords fsStopAbsent).2.1)).1 ↔
      w ∈ DEFAULT_STOPWORDS) :=
  load_stopwords_default_roundtrip fsStopAbsent rfl rfl

/-- C10: a stopword file that exists with empty content is handled
exactly as an absent one - load_stopwords rewrites it with the sorted
default set and returns the default set - whereas a file of only blank
lines is truthy: it parses to the empty stopword set and the file
system is left untouched, with no write attempted. -/
theorem load_stopwords_empty_vs_blank (fs fsb : FS) (s : List Char)
    (hempty : fs.files STOPWORDS_FILE = FileContent.utf8 [])
    (hw : fs.writable STOPWORDS_FILE = true)
    (hfile : fsb.files STOPWORDS_FILE = FileContent.utf8 s) (hs : s ≠ [])
    (hblank : ∀ line ∈ splitlines s, pyStrip line = []) :
    load_stopwords fs =
      load_stopwords (FS.mk
        (fun q => if q = STOPWORDS_FILE then FileContent.absent else fs.files q)
        fs.writable) ∧
    (load_stopwords fs).1 = DEFAULT_STOPWORDS ∧
    ((load_stopwords fs).2.1).files STOPWORDS_FILE =
      FileContent.utf8 (joinNL (sortAsc DEFAULT_STOPWORDS)) ∧
    load_stopwords fsb = ([], fsb, []) := by
  have h1 := load_stopwords_on_empty fs hempty hw
  have h2 := load_stopwords_on_absent
    (FS.mk (fun q => if q = STOPWORDS_FILE then FileContent.absent else fs.files q)
      fs.writable)
    (by dsimp only; rw [if_pos rfl]) hw
  refine ⟨?_, ?_, ?_, ?_⟩
  · rw [h1, h2]
    refine Prod.ext rfl (Prod.ext ?_ rfl)
    dsimp only
    congr 1
    funext q
    by_cases hq : q = STOPWORDS_FILE
    · rw [if_pos hq, if_pos hq]
    · rw [if_neg hq, if_neg hq, if_neg hq]
  · rw [h1]
  · rw [h1]
    dsimp only
    rw [if_pos rfl]
  · rw [load_stopwords_on_utf8 fsb s hfile hs]
    have hp : parseStopwords s = [] := by
      unfold parseStopwords
      rw [List.filterMap_eq_nil_iff]
      intro line hline
      rw [hblank line hline]
      rfl
    rw [hp]

/-- C10 witness: the empty-content file at fsStopEmpty and the
blank-lines file at fsStopBlank. -/
theorem load_stopwords_empty_vs_blank_witness :
    load_stopwords fsStopEmpty =
      load_stopwords (FS.mk
        (fun q => if q = STOPWORDS_FILE then FileContent.absent else fsStopEmpty.files q)
        fsStopEmpty.writable) ∧
    (load_stopwords fsStopEmpty).1 = DEFAULT_STOPWORDS ∧
    ((load_stopwords fsStopEmpty).2.1).files STOPWORDS_FILE =
      FileContent.utf8 (joinNL (sortAsc DEFAULT_STOPWORDS)) ∧
    load_stopwords fsStopBlank = ([], fsStopBlank, []) :=
  load_stopwords_empty_vs_blank fsStopEmpty fsStopBlank [' ', '\n', ' ']
    (by decide) rfl (by decide) (by decide) (by decide)
